import Mathlib

/-!
Verification of the numeric core of the MLProject3DTU repository: the
quartile discretizer of Processing.py and the cluster-validation and
kernel-density routines of toolbox.py, shallowly embedded in Lean.

Real-valued data is modelled by rationals where the code only ever
compares, adds, multiplies and divides (the discretizer and the pair
counting of clusterval), and by real numbers where the code applies
transcendental functions (the Gaussian kernel density estimator).
Python float division raising ZeroDivisionError on a zero denominator is
modelled by an Except result.
-/

/-- Fractional index used by the linear-interpolation percentile:
q percent of the way through a list of length n, that is q * (n - 1) / 100.
Modelled from the numpy library function np.percentile called by
Processing.py (linear interpolation between order statistics, numpy's
default), which the repository relies on but does not define. -/
def pIdx (n : ℕ) (q : ℚ) : ℚ :=
  q * ((n : ℚ) - 1) / 100

/-- Lower order-statistic index of the interpolation: the floor of the
fractional index. -/
def pLo (n : ℕ) (q : ℚ) : ℕ :=
  ⌊pIdx n q⌋₊

/-- The q-th percentile of a list by linear interpolation between order
statistics: sort the list, take the entry at the floor of the fractional
index, and interpolate toward the next entry by the fractional part.
Modelled from the numpy library function np.percentile called by
Processing.py. -/
def percentile (y : List ℚ) (q : ℚ) : ℚ :=
  (List.insertionSort (· ≤ ·) y).getD (pLo y.length q) 0 +
    (pIdx y.length q - (pLo y.length q : ℚ)) *
      ((List.insertionSort (· ≤ ·) y).getD (pLo y.length q + 1) 0 -
        (List.insertionSort (· ≤ ·) y).getD (pLo y.length q) 0)

/-- Body of the classY loop of Processing.py: compare one value against the
three quartile thresholds, first matching branch wins. -/
def classOf (p25 p50 p75 v : ℚ) : ℕ :=
  if v ≤ p25 then 0
  else if v ≤ p50 then 1
  else if v ≤ p75 then 2
  else 3

/-- Embedding of the classY computation of Processing.py: each entry of y is
classified against the 25th, 50th and 75th percentiles of the whole vector. -/
def classY (y : List ℚ) : List ℕ :=
  y.map fun v => classOf (percentile y 25) (percentile y 50) (percentile y 75) v

/-- Index pairs visited by the double loop of clusterval in toolbox.py:
for i in range(N), for j in range(i). -/
def pairList (n : ℕ) : List (ℕ × ℕ) :=
  (List.range n).flatMap fun i => (List.range i).map fun j => (i, j)

/-- Bucket assigned to one pair of observations by the if/elif chain of
clusterval: 0 for f00 (different class, different cluster), 11 for f11
(same class, same cluster), 10 for f10 (same class, different cluster),
and 1 for f01 (the residual case: different class, same cluster). -/
def pairBucket (yi yj ci cj : ℚ) : ℕ :=
  if yi ≠ yj ∧ ci ≠ cj then 0
  else if yi = yj ∧ ci = cj then 11
  else if yi = yj ∧ ci ≠ cj then 10
  else 1

/-- Number of index pairs of the clusterval loop that fall in bucket b. -/
def bucketCount (y c : List ℚ) (b : ℕ) : ℕ :=
  ((pairList y.length).map fun p =>
    pairBucket (y.getD p.1 0) (y.getD p.2 0) (c.getD p.1 0) (c.getD p.2 0)).countP
    fun x => x == b

/-- Counter f00 of clusterval: pairs in different classes and different
clusters. -/
def f00 (y c : List ℚ) : ℕ := bucketCount y c 0

/-- Counter f01 of clusterval: pairs in different classes but the same
cluster. -/
def f01 (y c : List ℚ) : ℕ := bucketCount y c 1

/-- Counter f10 of clusterval: pairs in the same class but different
clusters. -/
def f10 (y c : List ℚ) : ℕ := bucketCount y c 10

/-- Counter f11 of clusterval: pairs in the same class and the same
cluster. -/
def f11 (y c : List ℚ) : ℕ := bucketCount y c 11

/-- Embedding of clusterval of toolbox.py. The normalized mutual
information is an external library call (sklearn) and is abstracted as the
function argument nmi. The two float divisions of the source raise
ZeroDivisionError when their denominator is zero (np.float is the plain
Python float, whose division by an int zero raises); a raised exception is
modelled as an error result. On success the source returns the triple
(rand, jaccard, NMI). -/
def clusterval (nmi : List ℚ → List ℚ → ℚ) (y c : List ℚ) :
    Except Unit (ℚ × ℚ × ℚ) :=
  if f00 y c + f01 y c + f10 y c + f11 y c = 0 then .error ()
  else if f01 y c + f10 y c + f11 y c = 0 then .error ()
  else .ok
    (((f00 y c + f11 y c : ℕ) : ℚ) / ((f00 y c + f01 y c + f10 y c + f11 y c : ℕ) : ℚ),
     ((f11 y c : ℕ) : ℚ) / ((f01 y c + f10 y c + f11 y c : ℕ) : ℚ),
     nmi y c)

/-- Stand-in for the abstracted external NMI computation, used to
instantiate clusterval on concrete inputs. -/
def nmiZero : List ℚ → List ℚ → ℚ := fun _ _ => 0

/-! ### Facts about the sorted copy of the data and the percentile indices -/

lemma sortY_sorted (y : List ℚ) : (List.insertionSort (· ≤ ·) y).Sorted (· ≤ ·) :=
  List.sorted_insertionSort _ y

lemma sortY_perm (y : List ℚ) : (List.insertionSort (· ≤ ·) y).Perm y :=
  List.perm_insertionSort _ y

lemma sortY_length (y : List ℚ) : (List.insertionSort (· ≤ ·) y).length = y.length :=
  List.length_insertionSort _ y

lemma sortY_getD_mono {y : List ℚ} {i j : ℕ} (hij : i ≤ j) (hj : j < y.length) :
    (List.insertionSort (· ≤ ·) y).getD i 0 ≤ (List.insertionSort (· ≤ ·) y).getD j 0 := by
  have hl : (List.insertionSort (· ≤ ·) y).length = y.length := sortY_length y
  have hj' : j < (List.insertionSort (· ≤ ·) y).length := by omega
  have hi' : i < (List.insertionSort (· ≤ ·) y).length := by omega
  rw [List.getD_eq_getElem _ _ hi', List.getD_eq_getElem _ _ hj']
  have h := List.Sorted.rel_get_of_le (sortY_sorted y)
    (a := ⟨i, hi'⟩) (b := ⟨j, hj'⟩) (Fin.mk_le_mk.mpr hij)
  simpa [List.get_eq_getElem] using h

lemma sortY_getD_strict {y : List ℚ} (hnd : y.Nodup) {i j : ℕ} (hij : i < j)
    (hj : j < y.length) :
    (List.insertionSort (· ≤ ·) y).getD i 0 < (List.insertionSort (· ≤ ·) y).getD j 0 := by
  have hl : (List.insertionSort (· ≤ ·) y).length = y.length := sortY_length y
  have hj' : j < (List.insertionSort (· ≤ ·) y).length := by omega
  have hi' : i < (List.insertionSort (· ≤ ·) y).length := by omega
  have hnd' : (List.insertionSort (· ≤ ·) y).Nodup := (sortY_perm y).nodup_iff.mpr hnd
  have hs : (List.insertionSort (· ≤ ·) y).Sorted (· < ·) :=
    (sortY_sorted y).lt_of_le hnd'
  rw [List.getD_eq_getElem _ _ hi', List.getD_eq_getElem _ _ hj']
  have h := hs.get_strictMono (a := ⟨i, hi'⟩) (b := ⟨j, hj'⟩) (Fin.mk_lt_mk.mpr hij)
  simpa [List.get_eq_getElem] using h

lemma pIdx_nonneg {n : ℕ} {q : ℚ} (hq : 0 ≤ q) (hn : 1 ≤ n) : 0 ≤ pIdx n q := by
  have h1 : (1 : ℚ) ≤ (n : ℚ) := by exact_mod_cast hn
  unfold pIdx
  apply div_nonneg (mul_nonneg hq (by linarith)) (by norm_num)

lemma pLo_cast_le {n : ℕ} {q : ℚ} (hq : 0 ≤ q) (hn : 1 ≤ n) :
    ((pLo n q : ℕ) : ℚ) ≤ pIdx n q :=
  Nat.floor_le (pIdx_nonneg hq hn)

lemma pIdx_lt_pLo_add_one (n : ℕ) (q : ℚ) : pIdx n q < (pLo n q : ℚ) + 1 :=
  Nat.lt_floor_add_one _

lemma natCast_pred {n : ℕ} (hn : 1 ≤ n) : ((n : ℚ) - 1) = ((n - 1 : ℕ) : ℚ) := by
  rw [Nat.cast_sub hn, Nat.cast_one]

lemma pLo_25 {n : ℕ} (hn : 1 ≤ n) : pLo n 25 = (n - 1) / 4 := by
  unfold pLo pIdx
  rw [natCast_pred hn,
    show (25 : ℚ) * ((n - 1 : ℕ) : ℚ) / 100 = ((n - 1 : ℕ) : ℚ) / ((4 : ℕ) : ℚ) by
      push_cast; ring,
    Nat.floor_div_nat, Nat.floor_natCast]

lemma pLo_50 {n : ℕ} (hn : 1 ≤ n) : pLo n 50 = (n - 1) / 2 := by
  unfold pLo pIdx
  rw [natCast_pred hn,
    show (50 : ℚ) * ((n - 1 : ℕ) : ℚ) / 100 = ((n - 1 : ℕ) : ℚ) / ((2 : ℕ) : ℚ) by
      push_cast; ring,
    Nat.floor_div_nat, Nat.floor_natCast]

lemma pLo_75 {n : ℕ} (hn : 1 ≤ n) : pLo n 75 = 3 * (n - 1) / 4 := by
  unfold pLo pIdx
  rw [natCast_pred hn,
    show (75 : ℚ) * ((n - 1 : ℕ) : ℚ) / 100 = ((3 * (n - 1) : ℕ) : ℚ) / ((4 : ℕ) : ℚ) by
      push_cast; ring,
    Nat.floor_div_nat, Nat.floor_natCast]

lemma percentile_ge_lo {y : List ℚ} {q : ℚ} (hq : 0 ≤ q) (hn : 2 ≤ y.length)
    (hk : pLo y.length q + 2 ≤ y.length) :
    (List.insertionSort (· ≤ ·) y).getD (pLo y.length q) 0 ≤ percentile y q := by
  have hf0 : (0 : ℚ) ≤ pIdx y.length q - (pLo y.length q : ℚ) :=
    sub_nonneg.mpr (pLo_cast_le hq (by omega))
  have hgap : (List.insertionSort (· ≤ ·) y).getD (pLo y.length q) 0 ≤
      (List.insertionSort (· ≤ ·) y).getD (pLo y.length q + 1) 0 :=
    sortY_getD_mono (Nat.le_succ _) (by omega)
  unfold percentile
  nlinarith [mul_nonneg hf0 (sub_nonneg.mpr hgap)]

lemma percentile_le_hi {y : List ℚ} {q : ℚ} (hq : 0 ≤ q) (hn : 2 ≤ y.length)
    (hk : pLo y.length q + 2 ≤ y.length) :
    percentile y q ≤ (List.insertionSort (· ≤ ·) y).getD (pLo y.length q + 1) 0 := by
  have hf1 : pIdx y.length q - (pLo y.length q : ℚ) ≤ 1 := by
    have := pIdx_lt_pLo_add_one y.length q
    linarith
  have hgap : (List.insertionSort (· ≤ ·) y).getD (pLo y.length q) 0 ≤
      (List.insertionSort (· ≤ ·) y).getD (pLo y.length q + 1) 0 :=
    sortY_getD_mono (Nat.le_succ _) (by omega)
  have hmul : (pIdx y.length q - (pLo y.length q : ℚ)) *
      ((List.insertionSort (· ≤ ·) y).getD (pLo y.length q + 1) 0 -
        (List.insertionSort (· ≤ ·) y).getD (pLo y.length q) 0) ≤
      1 * ((List.insertionSort (· ≤ ·) y).getD (pLo y.length q + 1) 0 -
        (List.insertionSort (· ≤ ·) y).getD (pLo y.length q) 0) :=
    mul_le_mul_of_nonneg_right hf1 (sub_nonneg.mpr hgap)
  unfold percentile
  linarith

lemma percentile_lt_hi {y : List ℚ} {q : ℚ} (hnd : y.Nodup) (hn : 2 ≤ y.length)
    (hk : pLo y.length q + 2 ≤ y.length) :
    percentile y q < (List.insertionSort (· ≤ ·) y).getD (pLo y.length q + 1) 0 := by
  have hf1 : pIdx y.length q - (pLo y.length q : ℚ) < 1 := by
    have := pIdx_lt_pLo_add_one y.length q
    linarith
  have hgap : (List.insertionSort (· ≤ ·) y).getD (pLo y.length q) 0 <
      (List.insertionSort (· ≤ ·) y).getD (pLo y.length q + 1) 0 :=
    sortY_getD_strict hnd (Nat.lt_succ_self _) (by omega)
  have hmul : (pIdx y.length q - (pLo y.length q : ℚ)) *
      ((List.insertionSort (· ≤ ·) y).getD (pLo y.length q + 1) 0 -
        (List.insertionSort (· ≤ ·) y).getD (pLo y.length q) 0) <
      1 * ((List.insertionSort (· ≤ ·) y).getD (pLo y.length q + 1) 0 -
        (List.insertionSort (· ≤ ·) y).getD (pLo y.length q) 0) :=
    mul_lt_mul_of_pos_right hf1 (sub_pos.mpr hgap)
  unfold percentile
  linarith

lemma pIdx_mono {n : ℕ} {q1 q2 : ℚ} (h12 : q1 ≤ q2) (hn : 1 ≤ n) :
    pIdx n q1 ≤ pIdx n q2 := by
  have h1 : (1 : ℚ) ≤ (n : ℚ) := by exact_mod_cast hn
  unfold pIdx
  have h : q1 * ((n : ℚ) - 1) ≤ q2 * ((n : ℚ) - 1) :=
    mul_le_mul_of_nonneg_right h12 (by linarith)
  rw [div_eq_mul_inv, div_eq_mul_inv]
  exact mul_le_mul_of_nonneg_right h (by norm_num)

lemma percentile_mono_q {y : List ℚ} {q1 q2 : ℚ} (h1 : 0 ≤ q1) (h12 : q1 ≤ q2)
    (hn : 2 ≤ y.length) (hk : pLo y.length q2 + 2 ≤ y.length) :
    percentile y q1 ≤ percentile y q2 := by
  have h2 : 0 ≤ q2 := le_trans h1 h12
  have hkk : pLo y.length q1 ≤ pLo y.length q2 :=
    Nat.floor_mono (pIdx_mono h12 (by omega))
  rcases Nat.lt_or_ge (pLo y.length q1) (pLo y.length q2) with hlt | hge
  · have hk1 : pLo y.length q1 + 2 ≤ y.length := by omega
    have hhi : percentile y q1 ≤
        (List.insertionSort (· ≤ ·) y).getD (pLo y.length q1 + 1) 0 :=
      percentile_le_hi h1 hn hk1
    have hmid : (List.insertionSort (· ≤ ·) y).getD (pLo y.length q1 + 1) 0 ≤
        (List.insertionSort (· ≤ ·) y).getD (pLo y.length q2) 0 :=
      sortY_getD_mono (by omega) (by omega)
    have hlo : (List.insertionSort (· ≤ ·) y).getD (pLo y.length q2) 0 ≤ percentile y q2 :=
      percentile_ge_lo h2 hn hk
    linarith
  · have heq : pLo y.length q1 = pLo y.length q2 := le_antisymm hkk hge
    have hgap : (List.insertionSort (· ≤ ·) y).getD (pLo y.length q2) 0 ≤
        (List.insertionSort (· ≤ ·) y).getD (pLo y.length q2 + 1) 0 :=
      sortY_getD_mono (Nat.le_succ _) (by omega)
    have hidx : pIdx y.length q1 ≤ pIdx y.length q2 := pIdx_mono h12 (by omega)
    have hmul : (pIdx y.length q1 - (pLo y.length q2 : ℚ)) *
        ((List.insertionSort (· ≤ ·) y).getD (pLo y.length q2 + 1) 0 -
          (List.insertionSort (· ≤ ·) y).getD (pLo y.length q2) 0) ≤
        (pIdx y.length q2 - (pLo y.length q2 : ℚ)) *
        ((List.insertionSort (· ≤ ·) y).getD (pLo y.length q2 + 1) 0 -
          (List.insertionSort (· ≤ ·) y).getD (pLo y.length q2) 0) :=
      mul_le_mul_of_nonneg_right (by linarith) (sub_nonneg.mpr hgap)
    unfold percentile
    rw [heq]
    linarith

lemma percentile_of_len_one {y : List ℚ} (h : y.length = 1) (q : ℚ) :
    percentile y q = (List.insertionSort (· ≤ ·) y).getD 0 0 := by
  have hidx : pIdx y.length q = 0 := by
    unfold pIdx
    rw [h]
    norm_num
  have hlo : pLo y.length q = 0 := by
    unfold pLo
    rw [hidx]
    exact Nat.floor_zero
  unfold percentile
  rw [hidx, hlo]
  norm_num

lemma percentile_quartiles_mono {y : List ℚ} (hy : y ≠ []) :
    percentile y 25 ≤ percentile y 50 ∧ percentile y 50 ≤ percentile y 75 := by
  have hn1 : 1 ≤ y.length := List.length_pos.mpr hy
  rcases Nat.lt_or_ge y.length 2 with h1 | h2
  · have hlen : y.length = 1 := by omega
    rw [percentile_of_len_one hlen 25, percentile_of_len_one hlen 50,
      percentile_of_len_one hlen 75]
    exact ⟨le_refl _, le_refl _⟩
  · have h50 : pLo y.length 50 + 2 ≤ y.length := by
      rw [pLo_50 hn1]; omega
    have h75 : pLo y.length 75 + 2 ≤ y.length := by
      rw [pLo_75 hn1]; omega
    exact ⟨percentile_mono_q (by norm_num) (by norm_num) h2 h50,
      percentile_mono_q (by norm_num) (by norm_num) h2 h75⟩

/-! ### The discretizer: class characterization and monotonicity -/

lemma classOf_eq_iff {p25 p50 p75 : ℚ} (hab : p25 ≤ p50) (hbc : p50 ≤ p75) (v : ℚ) :
    (classOf p25 p50 p75 v = 0 ↔ v ≤ p25) ∧
    (classOf p25 p50 p75 v = 1 ↔ p25 < v ∧ v ≤ p50) ∧
    (classOf p25 p50 p75 v = 2 ↔ p50 < v ∧ v ≤ p75) ∧
    (classOf p25 p50 p75 v = 3 ↔ p75 < v) := by
  unfold classOf
  split_ifs with h1 h2 h3
  · exact ⟨iff_of_true rfl h1,
      iff_of_false (by decide) (fun h => lt_irrefl _ (h.1.trans_le h1)),
      iff_of_false (by decide) (fun h => lt_irrefl _ (h.1.trans_le (h1.trans hab))),
      iff_of_false (by decide) (fun h => lt_irrefl _ (h.trans_le (h1.trans (hab.trans hbc))))⟩
  · exact ⟨iff_of_false (by decide) h1,
      iff_of_true rfl ⟨not_le.mp h1, h2⟩,
      iff_of_false (by decide) (fun h => lt_irrefl _ (h.1.trans_le h2)),
      iff_of_false (by decide) (fun h => lt_irrefl _ (h.trans_le (h2.trans hbc)))⟩
  · exact ⟨iff_of_false (by decide) h1,
      iff_of_false (by decide) (fun h => h2 h.2),
      iff_of_true rfl ⟨not_le.mp h2, h3⟩,
      iff_of_false (by decide) (fun h => lt_irrefl _ (h.trans_le h3))⟩
  · exact ⟨iff_of_false (by decide) h1,
      iff_of_false (by decide) (fun h => h2 h.2),
      iff_of_false (by decide) (fun h => h3 h.2),
      iff_of_true rfl (not_le.mp h3)⟩

lemma classOf_mono (p25 p50 p75 : ℚ) {v w : ℚ} (hvw : v ≤ w) :
    classOf p25 p50 p75 v ≤ classOf p25 p50 p75 w := by
  unfold classOf
  split_ifs <;> first | omega | (exfalso; linarith)

lemma classY_getD {y : List ℚ} {i : ℕ} (hi : i < y.length) :
    (classY y).getD i 0 =
      classOf (percentile y 25) (percentile y 50) (percentile y 75) (y.get ⟨i, hi⟩) := by
  unfold classY
  rw [List.getD_eq_getElem _ _ (by simpa using hi), List.getElem_map,
    List.get_eq_getElem]

/-- Claim C1: for every non-empty rational vector y, the discretizer produces a
vector of the same length whose entry i is 0 exactly when y[i] is at most the
25th percentile, 1 exactly when it lies in (p25, p50], 2 exactly when it lies
in (p50, p75], and 3 exactly when it exceeds the 75th percentile, the
percentiles being computed over the whole vector by linear interpolation
between order statistics; ties at a boundary fall into the lower class. -/
theorem discretizer_quartile_classes (y : List ℚ) (hy : y ≠ []) :
    (classY y).length = y.length ∧
    ∀ i (hi : i < y.length),
      ((classY y).getD i 0 = 0 ↔ y.get ⟨i, hi⟩ ≤ percentile y 25) ∧
      ((classY y).getD i 0 = 1 ↔
        percentile y 25 < y.get ⟨i, hi⟩ ∧ y.get ⟨i, hi⟩ ≤ percentile y 50) ∧
      ((classY y).getD i 0 = 2 ↔
        percentile y 50 < y.get ⟨i, hi⟩ ∧ y.get ⟨i, hi⟩ ≤ percentile y 75) ∧
      ((classY y).getD i 0 = 3 ↔ percentile y 75 < y.get ⟨i, hi⟩) := by
  obtain ⟨hab, hbc⟩ := percentile_quartiles_mono hy
  refine ⟨by simp [classY], fun i hi => ?_⟩
  rw [classY_getD hi]
  exact classOf_eq_iff hab hbc _

/-- Witness for C1 at the concrete vector [3, 1, 2, 4]. -/
theorem discretizer_quartile_classes_witness :
    ([(3 : ℚ), 1, 2, 4] ≠ []) ∧
    ((classY [(3 : ℚ), 1, 2, 4]).length = [(3 : ℚ), 1, 2, 4].length ∧
    ∀ i (hi : i < [(3 : ℚ), 1, 2, 4].length),
      ((classY [(3 : ℚ), 1, 2, 4]).getD i 0 = 0 ↔
        [(3 : ℚ), 1, 2, 4].get ⟨i, hi⟩ ≤ percentile [(3 : ℚ), 1, 2, 4] 25) ∧
      ((classY [(3 : ℚ), 1, 2, 4]).getD i 0 = 1 ↔
        percentile [(3 : ℚ), 1, 2, 4] 25 < [(3 : ℚ), 1, 2, 4].get ⟨i, hi⟩ ∧
          [(3 : ℚ), 1, 2, 4].get ⟨i, hi⟩ ≤ percentile [(3 : ℚ), 1, 2, 4] 50) ∧
      ((classY [(3 : ℚ), 1, 2, 4]).getD i 0 = 2 ↔
        percentile [(3 : ℚ), 1, 2, 4] 50 < [(3 : ℚ), 1, 2, 4].get ⟨i, hi⟩ ∧
          [(3 : ℚ), 1, 2, 4].get ⟨i, hi⟩ ≤ percentile [(3 : ℚ), 1, 2, 4] 75) ∧
      ((classY [(3 : ℚ), 1, 2, 4]).getD i 0 = 3 ↔
        percentile [(3 : ℚ), 1, 2, 4] 75 < [(3 : ℚ), 1, 2, 4].get ⟨i, hi⟩)) :=
  ⟨by simp, discretizer_quartile_classes [(3 : ℚ), 1, 2, 4] (by simp)⟩

/-- Claim C8: the discretizer is monotone: a smaller or equal data value never
receives a larger class index. -/
theorem discretizer_monotone (y : List ℚ) (i j : ℕ) (hi : i < y.length)
    (hj : j < y.length) (hij : y.get ⟨i, hi⟩ ≤ y.get ⟨j, hj⟩) :
    (classY y).getD i 0 ≤ (classY y).getD j 0 := by
  rw [classY_getD hi, classY_getD hj]
  exact classOf_mono _ _ _ hij

/-- Witness for C8 at y = [5, 7], i = 0, j = 1. -/
theorem discretizer_monotone_witness :
    (0 < [(5 : ℚ), 7].length) ∧ (1 < [(5 : ℚ), 7].length) ∧
    (classY [(5 : ℚ), 7]).getD 0 0 ≤ (classY [(5 : ℚ), 7]).getD 1 0 :=
  ⟨by norm_num, by norm_num,
    discretizer_monotone [(5 : ℚ), 7] 0 1 (by norm_num) (by norm_num) (by norm_num)⟩

/-! ### The cluster validator: pair partition and totals -/

lemma pairList_succ (n : ℕ) :
    pairList (n + 1) = pairList n ++ (List.range n).map fun j => (n, j) := by
  unfold pairList
  rw [List.range_succ, List.flatMap_append]
  simp

lemma pairList_length_two (n : ℕ) : 2 * (pairList n).length = n * (n - 1) := by
  induction n with
  | zero => rfl
  | succ k ih =>
    rw [pairList_succ, List.length_append, List.length_map, List.length_range,
      Nat.add_sub_cancel, Nat.mul_add, ih]
    cases k with
    | zero => rfl
    | succ m =>
      rw [Nat.succ_sub_one]
      ring

lemma mem_pairList {n : ℕ} {p : ℕ × ℕ} : p ∈ pairList n ↔ p.2 < p.1 ∧ p.1 < n := by
  unfold pairList
  rw [List.mem_flatMap]
  constructor
  · rintro ⟨i, hi, hp⟩
    rw [List.mem_range] at hi
    rw [List.mem_map] at hp
    obtain ⟨j, hj, rfl⟩ := hp
    rw [List.mem_range] at hj
    exact ⟨hj, hi⟩
  · rintro ⟨h21, h1n⟩
    refine ⟨p.1, List.mem_range.mpr h1n, List.mem_map.mpr ⟨p.2, List.mem_range.mpr h21, rfl⟩⟩

lemma countP_partition (l : List ℕ) (h : ∀ x ∈ l, x = 0 ∨ x = 1 ∨ x = 10 ∨ x = 11) :
    l.countP (fun x => x == 0) + l.countP (fun x => x == 1) +
      l.countP (fun x => x == 10) + l.countP (fun x => x == 11) = l.length := by
  induction l with
  | nil => rfl
  | cons a t ih =>
    have ha := h a (List.mem_cons_self a t)
    have iht := ih fun x hx => h x (List.mem_cons_of_mem a hx)
    simp only [List.countP_cons, List.length_cons]
    rcases ha with rfl | rfl | rfl | rfl <;> norm_num <;> omega

lemma pairBucket_cases (yi yj ci cj : ℚ) :
    pairBucket yi yj ci cj = 0 ∨ pairBucket yi yj ci cj = 1 ∨
    pairBucket yi yj ci cj = 10 ∨ pairBucket yi yj ci cj = 11 := by
  unfold pairBucket
  split_ifs <;> simp

lemma bucket_total (y c : List ℚ) :
    f00 y c + f01 y c + f10 y c + f11 y c = y.length * (y.length - 1) / 2 := by
  have hpart := countP_partition
    ((pairList y.length).map fun p =>
      pairBucket (y.getD p.1 0) (y.getD p.2 0) (c.getD p.1 0) (c.getD p.2 0))
    (by
      intro x hx
      rw [List.mem_map] at hx
      obtain ⟨p, _, rfl⟩ := hx
      exact pairBucket_cases _ _ _ _)
  rw [List.length_map] at hpart
  have hlen := pairList_length_two y.length
  unfold f00 f01 f10 f11 bucketCount
  omega

lemma clusterval_error_of_den (nmi : List ℚ → List ℚ → ℚ) (y c : List ℚ)
    (h : f01 y c + f10 y c + f11 y c = 0) : clusterval nmi y c = .error () := by
  unfold clusterval
  by_cases h0 : f00 y c + f01 y c + f10 y c + f11 y c = 0
  · rw [if_pos h0]
  · rw [if_neg h0, if_pos h]

/-- Claim C2 (amended): for equal-length vectors with at least two entries,
the pair loop of clusterval partitions all N(N-1)/2 unordered pairs among the
four buckets f00, f01, f10, f11, and, provided at least one pair agrees on
the label or on the cluster (so that the Jaccard denominator f01+f10+f11 is
nonzero), the function returns the pair of ratios
Rand = (f00+f11)/(f00+f01+f10+f11) and Jaccard = f11/(f01+f10+f11) together
with the externally computed NMI. -/
theorem clusterval_pair_partition (nmi : List ℚ → List ℚ → ℚ) (y c : List ℚ)
    (hlen : y.length = c.length) (h2 : 2 ≤ y.length)
    (hden : f01 y c + f10 y c + f11 y c ≠ 0) :
    f00 y c + f01 y c + f10 y c + f11 y c = y.length * (y.length - 1) / 2 ∧
    clusterval nmi y c =
      .ok (((f00 y c + f11 y c : ℕ) : ℚ) /
          ((f00 y c + f01 y c + f10 y c + f11 y c : ℕ) : ℚ),
        ((f11 y c : ℕ) : ℚ) / ((f01 y c + f10 y c + f11 y c : ℕ) : ℚ),
        nmi y c) := by
  refine ⟨bucket_total y c, ?_⟩
  unfold clusterval
  rw [if_neg (by omega), if_neg hden]

/-- Witness for C2 at y = [0, 0], clusterid = [0, 0]. -/
theorem clusterval_pair_partition_witness :
    [(0 : ℚ), 0].length = [(0 : ℚ), 0].length ∧ 2 ≤ [(0 : ℚ), 0].length ∧
    f01 [(0 : ℚ), 0] [(0 : ℚ), 0] + f10 [(0 : ℚ), 0] [(0 : ℚ), 0] +
      f11 [(0 : ℚ), 0] [(0 : ℚ), 0] ≠ 0 ∧
    (f00 [(0 : ℚ), 0] [(0 : ℚ), 0] + f01 [(0 : ℚ), 0] [(0 : ℚ), 0] +
        f10 [(0 : ℚ), 0] [(0 : ℚ), 0] + f11 [(0 : ℚ), 0] [(0 : ℚ), 0] =
        [(0 : ℚ), 0].length * ([(0 : ℚ), 0].length - 1) / 2 ∧
      clusterval nmiZero [(0 : ℚ), 0] [(0 : ℚ), 0] =
        .ok (((f00 [(0 : ℚ), 0] [(0 : ℚ), 0] + f11 [(0 : ℚ), 0] [(0 : ℚ), 0] : ℕ) : ℚ) /
            ((f00 [(0 : ℚ), 0] [(0 : ℚ), 0] + f01 [(0 : ℚ), 0] [(0 : ℚ), 0] +
              f10 [(0 : ℚ), 0] [(0 : ℚ), 0] + f11 [(0 : ℚ), 0] [(0 : ℚ), 0] : ℕ) : ℚ),
          ((f11 [(0 : ℚ), 0] [(0 : ℚ), 0] : ℕ) : ℚ) /
            ((f01 [(0 : ℚ), 0] [(0 : ℚ), 0] + f10 [(0 : ℚ), 0] [(0 : ℚ), 0] +
              f11 [(0 : ℚ), 0] [(0 : ℚ), 0] : ℕ) : ℚ),
          nmiZero [(0 : ℚ), 0] [(0 : ℚ), 0])) :=
  ⟨rfl, by norm_num, by decide,
    clusterval_pair_partition nmiZero [(0 : ℚ), 0] [(0 : ℚ), 0] rfl (by norm_num) (by decide)⟩

/-- Claim C2 counterexample: at y = [0, 1], clusterid = [0, 1] (equal length,
N = 2) the Jaccard denominator is zero and the function raises
ZeroDivisionError instead of returning the claimed pair of ratios. -/
theorem clusterval_formula_fails_on_distinct :
    clusterval nmiZero [(0 : ℚ), 1] [(0 : ℚ), 1] = .error () :=
  clusterval_error_of_den nmiZero _ _ (by decide)

/-- Claim C4: whenever clusterval returns at all, it returns exactly the
triple (Rand index, Jaccard coefficient, NMI), in that order; the Entropy and
Purity measures promised by its docstring are neither computed nor
returned. -/
theorem clusterval_returns_triple (nmi : List ℚ → List ℚ → ℚ) (y c : List ℚ)
    (r : ℚ × ℚ × ℚ) (h : clusterval nmi y c = .ok r) :
    r = (((f00 y c + f11 y c : ℕ) : ℚ) /
        ((f00 y c + f01 y c + f10 y c + f11 y c : ℕ) : ℚ),
      ((f11 y c : ℕ) : ℚ) / ((f01 y c + f10 y c + f11 y c : ℕ) : ℚ),
      nmi y c) := by
  unfold clusterval at h
  split_ifs at h
  exact (Except.ok.inj h).symm

/-- Witness for C4 at y = [0, 0], clusterid = [0, 0]. -/
theorem clusterval_returns_triple_witness :
    clusterval nmiZero [(0 : ℚ), 0] [(0 : ℚ), 0] = .ok (1, 1, 0) ∧
    ((1 : ℚ), (1 : ℚ), (0 : ℚ)) =
      (((f00 [(0 : ℚ), 0] [(0 : ℚ), 0] + f11 [(0 : ℚ), 0] [(0 : ℚ), 0] : ℕ) : ℚ) /
          ((f00 [(0 : ℚ), 0] [(0 : ℚ), 0] + f01 [(0 : ℚ), 0] [(0 : ℚ), 0] +
            f10 [(0 : ℚ), 0] [(0 : ℚ), 0] + f11 [(0 : ℚ), 0] [(0 : ℚ), 0] : ℕ) : ℚ),
        ((f11 [(0 : ℚ), 0] [(0 : ℚ), 0] : ℕ) : ℚ) /
          ((f01 [(0 : ℚ), 0] [(0 : ℚ), 0] + f10 [(0 : ℚ), 0] [(0 : ℚ), 0] +
            f11 [(0 : ℚ), 0] [(0 : ℚ), 0] : ℕ) : ℚ),
        nmiZero [(0 : ℚ), 0] [(0 : ℚ), 0]) := by
  have hok : clusterval nmiZero [(0 : ℚ), 0] [(0 : ℚ), 0] = .ok (1, 1, 0) := by
    have h00 : f00 [(0 : ℚ), 0] [(0 : ℚ), 0] = 0 := by decide
    have h01 : f01 [(0 : ℚ), 0] [(0 : ℚ), 0] = 0 := by decide
    have h10 : f10 [(0 : ℚ), 0] [(0 : ℚ), 0] = 0 := by decide
    have h11 : f11 [(0 : ℚ), 0] [(0 : ℚ), 0] = 1 := by decide
    unfold clusterval
    rw [h00, h01, h10, h11]
    norm_num [nmiZero]
  exact ⟨hok, clusterval_returns_triple nmiZero [(0 : ℚ), 0] [(0 : ℚ), 0] (1, 1, 0) hok⟩

/-- Claim C7 (amended): when a denominator bucket sum is zero, clusterval
does not produce NaN or inf: the Python float division raises
ZeroDivisionError, modelled as an error result. -/
theorem clusterval_zero_denominator_raises (nmi : List ℚ → List ℚ → ℚ) (y c : List ℚ)
    (h : f00 y c + f01 y c + f10 y c + f11 y c = 0 ∨ f01 y c + f10 y c + f11 y c = 0) :
    clusterval nmi y c = .error () := by
  rcases h with h | h
  · exact clusterval_error_of_den nmi y c (by omega)
  · exact clusterval_error_of_den nmi y c h

/-- Witness for C7 at the degenerate input y = [0], clusterid = [0]
(no pairs at all, so every bucket sum is zero). -/
theorem clusterval_zero_denominator_raises_witness :
    (f00 [(0 : ℚ)] [(0 : ℚ)] + f01 [(0 : ℚ)] [(0 : ℚ)] + f10 [(0 : ℚ)] [(0 : ℚ)] +
        f11 [(0 : ℚ)] [(0 : ℚ)] = 0 ∨
      f01 [(0 : ℚ)] [(0 : ℚ)] + f10 [(0 : ℚ)] [(0 : ℚ)] + f11 [(0 : ℚ)] [(0 : ℚ)] = 0) ∧
    clusterval nmiZero [(0 : ℚ)] [(0 : ℚ)] = .error () :=
  ⟨Or.inl (by decide),
    clusterval_zero_denominator_raises nmiZero [(0 : ℚ)] [(0 : ℚ)] (Or.inl (by decide))⟩

/-- Claim C7 counterexample: on the degenerate input y = [1, 2],
clusterid = [3, 4] (single pair, differing in both label and cluster, so the
Jaccard denominator is zero) the function does not produce any NaN/inf
result: it raises, modelled as an error. -/
theorem clusterval_degenerate_not_nan :
    clusterval nmiZero [(1 : ℚ), 2] [(3 : ℚ), 4] = .error () :=
  clusterval_error_of_den nmiZero _ _ (by decide)

/-! ### Relabeling invariance of the pair buckets -/

lemma getD_map_of_lt {y : List ℚ} {σ : ℚ → ℚ} {i : ℕ} (hi : i < y.length) :
    (y.map σ).getD i 0 = σ (y.getD i 0) := by
  rw [List.getD_eq_getElem _ _ (by simpa using hi), List.getElem_map,
    List.getD_eq_getElem _ _ hi]

lemma relabel_bucket {y : List ℚ} {σ : ℚ → ℚ} (hσ : Function.Injective σ)
    {i j : ℕ} (hi : i < y.length) (hj : j < y.length) :
    pairBucket (y.getD i 0) (y.getD j 0) ((y.map σ).getD i 0) ((y.map σ).getD j 0) =
      if y.getD i 0 = y.getD j 0 then 11 else 0 := by
  rw [getD_map_of_lt hi, getD_map_of_lt hj]
  unfold pairBucket
  by_cases h : y.getD i 0 = y.getD j 0
  · rw [if_pos h, if_neg (fun hc => hc.1 h), if_pos ⟨h, congrArg σ h⟩]
  · rw [if_neg h, if_pos ⟨h, fun hc => h (hσ hc)⟩]

lemma relabel_f10 (y : List ℚ) (σ : ℚ → ℚ) (hσ : Function.Injective σ) :
    f10 y (y.map σ) = 0 := by
  unfold f10 bucketCount
  rw [List.countP_eq_zero]
  intro x hx
  rw [List.mem_map] at hx
  obtain ⟨p, hp, rfl⟩ := hx
  rw [mem_pairList] at hp
  rw [relabel_bucket hσ hp.2 (lt_trans hp.1 hp.2)]
  split_ifs <;> simp

lemma relabel_f01 (y : List ℚ) (σ : ℚ → ℚ) (hσ : Function.Injective σ) :
    f01 y (y.map σ) = 0 := by
  unfold f01 bucketCount
  rw [List.countP_eq_zero]
  intro x hx
  rw [List.mem_map] at hx
  obtain ⟨p, hp, rfl⟩ := hx
  rw [mem_pairList] at hp
  rw [relabel_bucket hσ hp.2 (lt_trans hp.1 hp.2)]
  split_ifs <;> simp

lemma relabel_f11_pos {y : List ℚ} (σ : ℚ → ℚ) (hσ : Function.Injective σ)
    (hdup : ¬ y.Nodup) : 0 < f11 y (y.map σ) := by
  rw [List.nodup_iff_injective_get, Function.not_injective_iff] at hdup
  obtain ⟨a, b, hab, hne⟩ := hdup
  have key : ∃ i j : ℕ, j < i ∧ i < y.length ∧ y.getD i 0 = y.getD j 0 := by
    have ha : y.get a = y.getD a.val 0 := by
      rw [List.getD_eq_getElem _ _ a.isLt, List.get_eq_getElem]
    have hb : y.get b = y.getD b.val 0 := by
      rw [List.getD_eq_getElem _ _ b.isLt, List.get_eq_getElem]
    have hvals : a.val ≠ b.val := fun hv => hne (Fin.val_injective hv)
    rcases Nat.lt_or_ge a.val b.val with hlt | hge
    · exact ⟨b.val, a.val, hlt, b.isLt, by rw [← ha, ← hb, hab]⟩
    · exact ⟨a.val, b.val, by omega, a.isLt, by rw [← ha, ← hb, hab]⟩
  obtain ⟨i, j, hji, hi, heq⟩ := key
  unfold f11 bucketCount
  rw [List.countP_pos]
  refine ⟨pairBucket (y.getD i 0) (y.getD j 0) ((y.map σ).getD i 0) ((y.map σ).getD j 0),
    List.mem_map.mpr ⟨(i, j), mem_pairList.mpr ⟨hji, hi⟩, rfl⟩, ?_⟩
  rw [relabel_bucket hσ hi (lt_trans hji hi), if_pos heq]
  rfl

/-- Claim C5 (amended): if clusterid is an injective (in particular any
bijective) renaming of the labels and some label is repeated (so that the
pair counts are not degenerate), clusterval returns Rand index 1 and Jaccard
index 1; when all labels are distinct the Jaccard division raises
ZeroDivisionError instead. -/
theorem clusterval_relabeling (nmi : List ℚ → List ℚ → ℚ) (y : List ℚ) (σ : ℚ → ℚ)
    (hσ : Function.Injective σ) (hdup : ¬ y.Nodup) :
    clusterval nmi y (y.map σ) = .ok (1, 1, nmi y (y.map σ)) := by
  have h10 := relabel_f10 y σ hσ
  have h01 := relabel_f01 y σ hσ
  have h11 := relabel_f11_pos σ hσ hdup
  unfold clusterval
  rw [if_neg (by omega), if_neg (by omega), h10, h01]
  set A := f00 y (y.map σ) with hA0
  set B := f11 y (y.map σ) with hB0
  have e1 : A + 0 + 0 + B = A + B := by omega
  have e2 : 0 + 0 + B = B := by omega
  rw [e1, e2]
  have hAB : ((A + B : ℕ) : ℚ) ≠ 0 := Nat.cast_ne_zero.mpr (by omega)
  have hBq : ((B : ℕ) : ℚ) ≠ 0 := Nat.cast_ne_zero.mpr (by omega)
  rw [div_self hAB, div_self hBq]

/-- Witness for C5 with y = [2, 2, 3] (a repeated label) and the identity
renaming. -/
theorem clusterval_relabeling_witness :
    Function.Injective (id : ℚ → ℚ) ∧ ¬ List.Nodup [(2 : ℚ), 2, 3] ∧
    clusterval nmiZero [(2 : ℚ), 2, 3] (List.map id [(2 : ℚ), 2, 3]) =
      .ok (1, 1, nmiZero [(2 : ℚ), 2, 3] (List.map id [(2 : ℚ), 2, 3])) :=
  ⟨Function.injective_id, by decide,
    clusterval_relabeling nmiZero [(2 : ℚ), 2, 3] id Function.injective_id (by decide)⟩

/-- Claim C5 counterexample: y = [0, 1] with the bijective renaming swapping
0 and 1 gives clusterid = [1, 0]; every pair disagrees on the label, the
Jaccard denominator is zero and clusterval raises instead of returning
Rand = Jaccard = 1. -/
theorem clusterval_relabeling_fails_on_distinct :
    clusterval nmiZero [(0 : ℚ), 1] [(1 : ℚ), 0] = .error () :=
  clusterval_error_of_den nmiZero _ _ (by decide)

/-- Claim C6 counterexample: at y = [0,0,1,1], clusterid = [0,1,0,1] the
bucket f00 is 2, not 0 as claimed (pairs (2,1) and (3,0) differ in both the
label and the cluster), and the returned Rand index is not 0. -/
theorem disagreement_scenario_fails :
    f00 [(0 : ℚ), 0, 1, 1] [(0 : ℚ), 1, 0, 1] ≠ 0 ∧
    clusterval nmiZero [(0 : ℚ), 0, 1, 1] [(0 : ℚ), 1, 0, 1] ≠
      .ok (0, 0, nmiZero [(0 : ℚ), 0, 1, 1] [(0 : ℚ), 1, 0, 1]) := by
  have h00 : f00 [(0 : ℚ), 0, 1, 1] [(0 : ℚ), 1, 0, 1] = 2 := by decide
  have h01 : f01 [(0 : ℚ), 0, 1, 1] [(0 : ℚ), 1, 0, 1] = 2 := by decide
  have h10 : f10 [(0 : ℚ), 0, 1, 1] [(0 : ℚ), 1, 0, 1] = 2 := by decide
  have h11 : f11 [(0 : ℚ), 0, 1, 1] [(0 : ℚ), 1, 0, 1] = 0 := by decide
  refine ⟨by omega, ?_⟩
  intro hcontra
  unfold clusterval at hcontra
  rw [h00, h01, h10, h11] at hcontra
  norm_num [nmiZero] at hcontra

/-- Claim C6 (amended): at y = [0,0,1,1], clusterid = [0,1,0,1] the pair
buckets are f00 = 2, f01 = 2, f10 = 2, f11 = 0 over the 6 unordered pairs,
and clusterval returns Rand = 2/6 = 1/3 and Jaccard = 0/4 = 0. -/
theorem disagreement_scenario_result (nmi : List ℚ → List ℚ → ℚ) :
    f00 [(0 : ℚ), 0, 1, 1] [(0 : ℚ), 1, 0, 1] = 2 ∧
    f01 [(0 : ℚ), 0, 1, 1] [(0 : ℚ), 1, 0, 1] = 2 ∧
    f10 [(0 : ℚ), 0, 1, 1] [(0 : ℚ), 1, 0, 1] = 2 ∧
    f11 [(0 : ℚ), 0, 1, 1] [(0 : ℚ), 1, 0, 1] = 0 ∧
    clusterval nmi [(0 : ℚ), 0, 1, 1] [(0 : ℚ), 1, 0, 1] =
      .ok (1 / 3, 0, nmi [(0 : ℚ), 0, 1, 1] [(0 : ℚ), 1, 0, 1]) := by
  have h00 : f00 [(0 : ℚ), 0, 1, 1] [(0 : ℚ), 1, 0, 1] = 2 := by decide
  have h01 : f01 [(0 : ℚ), 0, 1, 1] [(0 : ℚ), 1, 0, 1] = 2 := by decide
  have h10 : f10 [(0 : ℚ), 0, 1, 1] [(0 : ℚ), 1, 0, 1] = 2 := by decide
  have h11 : f11 [(0 : ℚ), 0, 1, 1] [(0 : ℚ), 1, 0, 1] = 0 := by decide
  refine ⟨h00, h01, h10, h11, ?_⟩
  unfold clusterval
  rw [h00, h01, h10, h11]
  norm_num

/-! ### Counting observations below the quartile thresholds -/

lemma sortY_get_eq_getD {y : List ℚ} {i : ℕ}
    (hi : i < (List.insertionSort (· ≤ ·) y).length) :
    (List.insertionSort (· ≤ ·) y).get ⟨i, hi⟩ =
      (List.insertionSort (· ≤ ·) y).getD i 0 := by
  rw [List.getD_eq_getElem _ _ hi, List.get_eq_getElem]

lemma countP_le_eq (t : ℚ) (s : List ℚ) : ∀ (k : ℕ), k ≤ s.length →
    (∀ i (hi : i < s.length), (s.get ⟨i, hi⟩ ≤ t ↔ i < k)) →
    s.countP (fun v => decide (v ≤ t)) = k := by
  induction s with
  | nil =>
    intro k hk _
    simp only [List.length_nil, Nat.le_zero] at hk
    simp [hk]
  | cons a tl ih =>
    intro k hk hiff
    rw [List.countP_cons]
    have h0 : a ≤ t ↔ 0 < k := by simpa using hiff 0 (by simp)
    cases k with
    | zero =>
      have ha : ¬ a ≤ t := fun h => by
        have := h0.mp h
        omega
      have htl : tl.countP (fun v => decide (v ≤ t)) = 0 :=
        ih 0 (Nat.zero_le _) (fun i hi => by
          have h := hiff (i + 1) (by simp; omega)
          rw [List.get_cons_succ] at h
          constructor
          · intro hle
            have := h.mp hle
            omega
          · intro hlt
            omega)
      simp [htl, ha]
    | succ m =>
      have ha : a ≤ t := h0.mpr (Nat.succ_pos m)
      have htl : tl.countP (fun v => decide (v ≤ t)) = m :=
        ih m (by simp at hk; omega) (fun i hi => by
          have h := hiff (i + 1) (by simp; omega)
          rw [List.get_cons_succ] at h
          constructor
          · intro hle
            have := h.mp hle
            omega
          · intro hlt
            exact h.mpr (by omega))
      simp [htl, ha]

lemma countP_le_percentile {y : List ℚ} {q : ℚ} (hnd : y.Nodup) (hq : 0 ≤ q)
    (hn : 2 ≤ y.length) (hk : pLo y.length q + 2 ≤ y.length) :
    y.countP (fun v => decide (v ≤ percentile y q)) = pLo y.length q + 1 := by
  have hperm := (sortY_perm y).countP_eq (fun v => decide (v ≤ percentile y q))
  rw [← hperm]
  have hl := sortY_length y
  apply countP_le_eq
  · omega
  · intro i hi
    rw [sortY_get_eq_getD hi]
    constructor
    · intro hle
      by_contra hge
      push_neg at hge
      have h1 : (List.insertionSort (· ≤ ·) y).getD (pLo y.length q + 1) 0 ≤
          (List.insertionSort (· ≤ ·) y).getD i 0 :=
        sortY_getD_mono (by omega) (by omega)
      have h2 : percentile y q <
          (List.insertionSort (· ≤ ·) y).getD (pLo y.length q + 1) 0 :=
        percentile_lt_hi hnd hn hk
      linarith
    · intro hik
      have h1 : (List.insertionSort (· ≤ ·) y).getD i 0 ≤
          (List.insertionSort (· ≤ ·) y).getD (pLo y.length q) 0 :=
        sortY_getD_mono (by omega) (by omega)
      have h2 : (List.insertionSort (· ≤ ·) y).getD (pLo y.length q) 0 ≤
          percentile y q :=
        percentile_ge_lo hq hn hk
      linarith

lemma countP_split (l : List ℚ) (p r : ℚ → Bool) (h : ∀ a ∈ l, r a = true → p a = true) :
    l.countP p = l.countP r + l.countP (fun a => p a && !r a) := by
  induction l with
  | nil => rfl
  | cons a tl ih =>
    have iht := ih (fun x hx => h x (List.mem_cons_of_mem a hx))
    have hha := h a (List.mem_cons_self a tl)
    simp only [List.countP_cons]
    by_cases hr : r a = true
    · have hp : p a = true := hha hr
      simp [hr, hp, iht]
      omega
    · by_cases hp : p a = true <;> simp [hr, hp, iht] <;> omega

lemma count_classY_eq_countP (y : List ℚ) (j : ℕ) :
    List.count j (classY y) =
      y.countP fun v =>
        classOf (percentile y 25) (percentile y 50) (percentile y 75) v == j := by
  rw [List.count_eq_countP, classY, List.countP_map]
  rfl

lemma classY_counts {y : List ℚ} (hnd : y.Nodup) (h4 : 4 ≤ y.length) :
    List.count 0 (classY y) = (y.length - 1) / 4 + 1 ∧
    List.count 1 (classY y) = (y.length - 1) / 2 - (y.length - 1) / 4 ∧
    List.count 2 (classY y) = 3 * (y.length - 1) / 4 - (y.length - 1) / 2 ∧
    List.count 3 (classY y) = y.length - (3 * (y.length - 1) / 4 + 1) := by
  have hn2 : 2 ≤ y.length := by omega
  have hn1 : 1 ≤ y.length := by omega
  have hne : y ≠ [] := by
    intro h
    rw [h] at hn1
    simp at hn1
  obtain ⟨hab, hbc⟩ := percentile_quartiles_mono hne
  have hc25 : y.countP (fun v => decide (v ≤ percentile y 25)) = (y.length - 1) / 4 + 1 := by
    have h := countP_le_percentile (q := 25) hnd (by norm_num) hn2 (by rw [pLo_25 hn1]; omega)
    rw [pLo_25 hn1] at h
    exact h
  have hc50 : y.countP (fun v => decide (v ≤ percentile y 50)) = (y.length - 1) / 2 + 1 := by
    have h := countP_le_percentile (q := 50) hnd (by norm_num) hn2 (by rw [pLo_50 hn1]; omega)
    rw [pLo_50 hn1] at h
    exact h
  have hc75 : y.countP (fun v => decide (v ≤ percentile y 75)) =
      3 * (y.length - 1) / 4 + 1 := by
    have h := countP_le_percentile (q := 75) hnd (by norm_num) hn2 (by rw [pLo_75 hn1]; omega)
    rw [pLo_75 hn1] at h
    exact h
  have hsplit1 : y.countP (fun v => decide (v ≤ percentile y 50)) =
      y.countP (fun v => decide (v ≤ percentile y 25)) +
        y.countP (fun v => decide (v ≤ percentile y 50) && !decide (v ≤ percentile y 25)) :=
    countP_split y _ _ (fun a _ h => by
      simp only [decide_eq_true_eq] at h ⊢
      exact le_trans h hab)
  have hsplit2 : y.countP (fun v => decide (v ≤ percentile y 75)) =
      y.countP (fun v => decide (v ≤ percentile y 50)) +
        y.countP (fun v => decide (v ≤ percentile y 75) && !decide (v ≤ percentile y 50)) :=
    countP_split y _ _ (fun a _ h => by
      simp only [decide_eq_true_eq] at h ⊢
      exact le_trans h hbc)
  have hlen3 := List.length_eq_countP_add_countP (fun v => decide (v ≤ percentile y 75)) y
  have key0 : List.count 0 (classY y) =
      y.countP (fun v => decide (v ≤ percentile y 25)) := by
    rw [count_classY_eq_countP]
    apply List.countP_congr
    intro x _
    simp only [beq_iff_eq, decide_eq_true_eq]
    exact (classOf_eq_iff hab hbc x).1
  have key1 : List.count 1 (classY y) =
      y.countP (fun v => decide (v ≤ percentile y 50) && !decide (v ≤ percentile y 25)) := by
    rw [count_classY_eq_countP]
    apply List.countP_congr
    intro x _
    simp only [beq_iff_eq, Bool.and_eq_true, Bool.not_eq_true', decide_eq_true_eq,
      decide_eq_false_iff_not, not_le]
    rw [(classOf_eq_iff hab hbc x).2.1]
    exact ⟨fun h => ⟨h.2, h.1⟩, fun h => ⟨h.2, h.1⟩⟩
  have key2 : List.count 2 (classY y) =
      y.countP (fun v => decide (v ≤ percentile y 75) && !decide (v ≤ percentile y 50)) := by
    rw [count_classY_eq_countP]
    apply List.countP_congr
    intro x _
    simp only [beq_iff_eq, Bool.and_eq_true, Bool.not_eq_true', decide_eq_true_eq,
      decide_eq_false_iff_not, not_le]
    rw [(classOf_eq_iff hab hbc x).2.2.1]
    exact ⟨fun h => ⟨h.2, h.1⟩, fun h => ⟨h.2, h.1⟩⟩
  have key3 : List.count 3 (classY y) =
      y.countP (fun v => decide ¬(v ≤ percentile y 75)) := by
    rw [count_classY_eq_countP]
    apply List.countP_congr
    intro x _
    simp only [beq_iff_eq, decide_eq_true_eq, not_le]
    exact (classOf_eq_iff hab hbc x).2.2.2
  simp only [decide_eq_true_eq] at hlen3
  refine ⟨by omega, by omega, by omega, by omega⟩

/-- Claim C9 (amended): for every vector of at least four pairwise distinct
values, each of the four classes receives between the floor and the ceiling
of N/4 members; with repeated values the balance can fail even when at
least four distinct values are present. -/
theorem discretizer_balanced_classes (y : List ℚ) (h4 : 4 ≤ y.length)
    (hnd : y.Nodup) (j : ℕ) (hj : j < 4) :
    y.length / 4 ≤ List.count j (classY y) ∧
    List.count j (classY y) ≤ (y.length + 3) / 4 := by
  obtain ⟨h0, h1, h2, h3⟩ := classY_counts hnd h4
  interval_cases j
  · rw [h0]
    omega
  · rw [h1]
    omega
  · rw [h2]
    omega
  · rw [h3]
    omega

/-- Witness for C9 at y = [1, 2, 3, 4], class 0. -/
theorem discretizer_balanced_classes_witness :
    4 ≤ [(1 : ℚ), 2, 3, 4].length ∧ List.Nodup [(1 : ℚ), 2, 3, 4] ∧ (0 : ℕ) < 4 ∧
    ([(1 : ℚ), 2, 3, 4].length / 4 ≤ List.count 0 (classY [(1 : ℚ), 2, 3, 4]) ∧
      List.count 0 (classY [(1 : ℚ), 2, 3, 4]) ≤ ([(1 : ℚ), 2, 3, 4].length + 3) / 4) :=
  ⟨by norm_num, by decide, by norm_num,
    discretizer_balanced_classes [(1 : ℚ), 2, 3, 4] (by norm_num) (by decide) 0 (by norm_num)⟩

/-- Claim C9 counterexample: y = [0,0,0,1,2,3] has N = 6 entries and exactly
four distinct values, yet class 1 receives 0 members, below the claimed
lower bound of N/4 = 1 (and class 0 receives 3, above the ceiling 2). -/
theorem balanced_classes_fails :
    4 ≤ [(0 : ℚ), 0, 0, 1, 2, 3].length ∧
    ([(0 : ℚ), 0, 0, 1, 2, 3].dedup).length = 4 ∧
    List.count 1 (classY [(0 : ℚ), 0, 0, 1, 2, 3]) <
      [(0 : ℚ), 0, 0, 1, 2, 3].length / 4 := by
  have hsort : List.insertionSort (· ≤ ·) [(0 : ℚ), 0, 0, 1, 2, 3] =
      [(0 : ℚ), 0, 0, 1, 2, 3] := by
    norm_num [List.insertionSort, List.orderedInsert]
  have hlen : [(0 : ℚ), 0, 0, 1, 2, 3].length = 6 := rfl
  have h25 : percentile [(0 : ℚ), 0, 0, 1, 2, 3] 25 = 0 := by
    unfold percentile
    rw [hsort, hlen]
    rw [show pLo 6 25 = 1 by rw [pLo_25 (by norm_num)]]
    rw [show pIdx 6 25 = 5 / 4 by unfold pIdx; norm_num]
    norm_num [List.getD_cons_zero, List.getD_cons_succ]
  have h50 : percentile [(0 : ℚ), 0, 0, 1, 2, 3] 50 = 1 / 2 := by
    unfold percentile
    rw [hsort, hlen]
    rw [show pLo 6 50 = 2 by rw [pLo_50 (by norm_num)]]
    rw [show pIdx 6 50 = 5 / 2 by unfold pIdx; norm_num]
    norm_num [List.getD_cons_zero, List.getD_cons_succ]
  have h75 : percentile [(0 : ℚ), 0, 0, 1, 2, 3] 75 = 7 / 4 := by
    unfold percentile
    rw [hsort, hlen]
    rw [show pLo 6 75 = 3 by rw [pLo_75 (by norm_num)]]
    rw [show pIdx 6 75 = 15 / 4 by unfold pIdx; norm_num]
    norm_num [List.getD_cons_zero, List.getD_cons_succ]
  have hclass : classY [(0 : ℚ), 0, 0, 1, 2, 3] = [0, 0, 0, 2, 3, 3] := by
    unfold classY
    rw [h25, h50, h75]
    norm_num [classOf]
  refine ⟨by norm_num, by decide, ?_⟩
  rw [hclass, hlen]
  decide

/-! ### The Gaussian kernel density estimator of toolbox.py -/

namespace GausKernelDensity

/-- Row sums of squares of gausKernelDensity: x2 = np.square(X).sum(axis=1). -/
noncomputable def x2 {N M : ℕ} (X : Fin N → Fin M → ℝ) (i : Fin N) : ℝ :=
  ∑ k, X i k ^ 2

/-- Pairwise distance matrix of the source, computed through the expanded
form D = x2 - 2 X Xᵀ + x2ᵀ. -/
noncomputable def D {N M : ℕ} (X : Fin N → Fin M → ℝ) (i j : Fin N) : ℝ :=
  x2 X i - 2 * ∑ k, X i k * X j k + x2 X j

/-- Kernel weights Q = np.exp(-1/(2 width) * D). -/
noncomputable def Q {N M : ℕ} (X : Fin N → Fin M → ℝ) (width : ℝ) (i j : Fin N) : ℝ :=
  Real.exp (-1 / (2 * width) * D X i j)

/-- Kernel weights after the in-place diagonal zeroing
Q[np.diag_indices_from(Q)] = 0, expressed as a fresh matrix. -/
noncomputable def Qz {N M : ℕ} (X : Fin N → Fin M → ℝ) (width : ℝ) (i j : Fin N) : ℝ :=
  if i = j then 0 else Q X width i j

/-- Row sums sQ = Q.sum(axis=1) taken after the diagonal zeroing. -/
noncomputable def sQ {N M : ℕ} (X : Fin N → Fin M → ℝ) (width : ℝ) (i : Fin N) : ℝ :=
  ∑ j, Qz X width i j

/-- density = 1/((N-1) * sqrt(2 pi width)^M + 1e-100) * sQ. -/
noncomputable def density {N M : ℕ} (X : Fin N → Fin M → ℝ) (width : ℝ) (i : Fin N) : ℝ :=
  1 / (((N : ℝ) - 1) * Real.sqrt (2 * Real.pi * width) ^ M + 1e-100) * sQ X width i

/-- log_density = -log(N-1) - M/2 * log(2 pi width) + log(sQ). -/
noncomputable def log_density {N M : ℕ} (X : Fin N → Fin M → ℝ) (width : ℝ)
    (i : Fin N) : ℝ :=
  -Real.log ((N : ℝ) - 1) - (M : ℝ) / 2 * Real.log (2 * Real.pi * width) +
    Real.log (sQ X width i)

/-- True pairwise squared Euclidean distance between rows i and j, stated
the way the specification describes it. -/
noncomputable def sqDist {N M : ℕ} (X : Fin N → Fin M → ℝ) (i j : Fin N) : ℝ :=
  ∑ k, (X i k - X j k) ^ 2

lemma D_eq_sqDist {N M : ℕ} (X : Fin N → Fin M → ℝ) (i j : Fin N) :
    D X i j = sqDist X i j := by
  unfold D x2 sqDist
  rw [Finset.mul_sum, ← Finset.sum_sub_distrib, ← Finset.sum_add_distrib]
  exact Finset.sum_congr rfl fun k _ => by ring

lemma sQ_eq_erase {N M : ℕ} (X : Fin N → Fin M → ℝ) (width : ℝ) (i : Fin N) :
    sQ X width i =
      ∑ j ∈ Finset.univ.erase i, Real.exp (-(sqDist X i j) / (2 * width)) := by
  unfold sQ
  rw [← Finset.sum_erase Finset.univ (f := fun j => Qz X width i j) (a := i)
    (by simp [Qz])]
  refine Finset.sum_congr rfl fun j hj => ?_
  rw [Finset.mem_erase] at hj
  unfold Qz Q
  rw [if_neg (Ne.symm hj.1), D_eq_sqDist]
  congr 1
  ring

/-- Claim C3: for every data matrix and positive bandwidth, the density
output equals the row sum of the zero-diagonal kernel weights
exp(-dist2/(2 width)) over the true pairwise squared Euclidean distances,
divided by (N-1) (2 pi width)^(M/2) + 1e-100, and the log-density output is
-log(N-1) - (M/2) log(2 pi width) + log of that same row sum. -/
theorem gausKernelDensity_closed_form {N M : ℕ} (X : Fin N → Fin M → ℝ)
    (width : ℝ) (hw : 0 < width) (i : Fin N) :
    density X width i =
      (∑ j ∈ Finset.univ.erase i, Real.exp (-(sqDist X i j) / (2 * width))) /
        (((N : ℝ) - 1) * (2 * Real.pi * width) ^ ((M : ℝ) / 2) + 1e-100) ∧
    log_density X width i =
      -Real.log ((N : ℝ) - 1) - (M : ℝ) / 2 * Real.log (2 * Real.pi * width) +
        Real.log (∑ j ∈ Finset.univ.erase i,
          Real.exp (-(sqDist X i j) / (2 * width))) := by
  have hnn : (0 : ℝ) ≤ 2 * Real.pi * width := by positivity
  have hsq : Real.sqrt (2 * Real.pi * width) ^ M =
      (2 * Real.pi * width) ^ ((M : ℝ) / 2) := by
    rw [Real.sqrt_eq_rpow, ← Real.rpow_natCast ((2 * Real.pi * width) ^ ((1 : ℝ) / 2)) M,
      ← Real.rpow_mul hnn]
    congr 1
    ring
  constructor
  · unfold density
    rw [sQ_eq_erase, hsq, one_div_mul_eq_div]
  · unfold log_density
    rw [sQ_eq_erase]

/-- Witness for C3 at N = 2, M = 1, X the column (0, 1), width = 1. -/
theorem gausKernelDensity_closed_form_witness :
    (0 : ℝ) < 1 ∧
    (density (fun i _ => ((i : ℕ) : ℝ) : Fin 2 → Fin 1 → ℝ) 1 0 =
      (∑ j ∈ Finset.univ.erase (0 : Fin 2),
        Real.exp (-(sqDist (fun i _ => ((i : ℕ) : ℝ) : Fin 2 → Fin 1 → ℝ) 0 j) /
          (2 * 1))) /
        ((((2 : ℕ) : ℝ) - 1) * (2 * Real.pi * 1) ^ (((1 : ℕ) : ℝ) / 2) + 1e-100)) ∧
    log_density (fun i _ => ((i : ℕ) : ℝ) : Fin 2 → Fin 1 → ℝ) 1 0 =
      -Real.log (((2 : ℕ) : ℝ) - 1) -
        ((1 : ℕ) : ℝ) / 2 * Real.log (2 * Real.pi * 1) +
        Real.log (∑ j ∈ Finset.univ.erase (0 : Fin 2),
          Real.exp (-(sqDist (fun i _ => ((i : ℕ) : ℝ) : Fin 2 → Fin 1 → ℝ) 0 j) /
            (2 * 1))) :=
  ⟨one_pos, gausKernelDensity_closed_form (fun i _ => ((i : ℕ) : ℝ)) 1 one_pos 0⟩

/-- Claim C10: the estimator depends on the data only through pairwise
squared distances: translating every row by the same constant vector leaves
both outputs unchanged. -/
theorem gausKernelDensity_translation_invariant {N M : ℕ} (X : Fin N → Fin M → ℝ)
    (c : Fin M → ℝ) (width : ℝ) (i : Fin N) :
    density (fun r k => X r k + c k) width i = density X width i ∧
    log_density (fun r k => X r k + c k) width i = log_density X width i := by
  have hsQ : sQ (fun r k => X r k + c k) width i = sQ X width i := by
    unfold sQ
    refine Finset.sum_congr rfl fun j _ => ?_
    unfold Qz
    by_cases h : i = j
    · rw [if_pos h, if_pos h]
    · have hd : sqDist (fun r k => X r k + c k) i j = sqDist X i j := by
        unfold sqDist
        exact Finset.sum_congr rfl fun k _ => by ring
      rw [if_neg h, if_neg h]
      unfold Q
      rw [D_eq_sqDist, D_eq_sqDist, hd]
  constructor
  · unfold density
    rw [hsQ]
  · unfold log_density
    rw [hsQ]

end GausKernelDensity
